import Mathlib

/-!
# Verification of the caption segmentation / timing / composition pipeline

Shallow embedding of `src/render_short.py`. Python strings are modelled as
`List Char`; Python floats are modelled as `ℚ` (the properties verified here
are order/structure properties that are exact in rational arithmetic).
Fallible or effectful parts (ffprobe, ffmpeg invocation) are out of scope;
the pure text pipeline and the filter-graph assembly in `main` are embedded.
-/

set_option maxHeartbeats 1000000

namespace RenderShort



/-- The single-quote character, written numerically. -/

def squote : Char := Char.ofNat 39

/-- Python whitespace (`str.split()` / `str.strip()` with no argument):
space, tab, newline, carriage return, vertical tab, form feed
(restricted to the ASCII range, which is all this pipeline uses). -/

def isSpace (c : Char) : Bool :=
  c = ' ' || c = '\t' || c = '\n' || c = '\r' || c = Char.ofNat 11 || c = Char.ofNat 12

/-- Python `str.strip()`: drop leading and trailing whitespace. -/

def strip (s : List Char) : List Char :=
  ((s.dropWhile isSpace).reverse.dropWhile isSpace).reverse

/-- Split a character list at every character satisfying `p`, keeping empty
fragments — the behaviour of Python `str.split(sep)` for a one-character
separator when `p = (· == sep)`. -/

def splitOnPred (p : Char → Bool) : List Char → List (List Char)
  | [] => [[]]
  | c :: rest =>
    if p c then [] :: splitOnPred p rest
    else
      match splitOnPred p rest with
      | [] => [[c]]
      | w :: ws => (c :: w) :: ws

/-- Python `s.split(sep)` for a single-character separator (keeps empties). -/

def splitOnChar (sep : Char) (s : List Char) : List (List Char) :=
  splitOnPred (fun c => c == sep) s

/-- Python `s.split()` with no argument: split on whitespace runs,
dropping empty fragments. -/

def splitWords (s : List Char) : List (List Char) :=
  (splitOnPred isSpace s).filter (fun w => w ≠ [])

/-- Python `sep.join(xs)` for a single-character separator. -/

def joinSep (sep : Char) : List (List Char) → List Char
  | [] => []
  | [l] => l
  | l :: l' :: ls => l ++ sep :: joinSep sep (l' :: ls)

/-- Python `s.replace(pat, rep)` for a one-character pattern (one-character
patterns cannot overlap, so `replace` is a per-character substitution). -/

def replaceChar (pat : Char) (rep : List Char) : List Char → List Char
  | [] => []
  | c :: rest => (if c = pat then rep else [c]) ++ replaceChar pat rep rest

/-- `escape_drawtext` from `render_short.py`: successive `str.replace`
calls, in source order: backslash, colon, single-quote, percent, newline. -/

def escape_drawtext (t : List Char) : List Char :=
  replaceChar '\n' ['\\', 'n'] <|
    replaceChar '%' ['\\', '%'] <|
      replaceChar squote ['\\', squote] <|
        replaceChar ':' ['\\', ':'] <|
          replaceChar '\\' ['\\', '\\'] t

/-- Per-character description of what `escape_drawtext` does to each input
character (the five replacements collapse to one pass because no replacement
output contains a character that a later replacement looks for). -/

def escChar (c : Char) : List Char :=
  if c = '\\' then ['\\', '\\']
  else if c = ':' then ['\\', ':']
  else if c = squote then ['\\', squote]
  else if c = '%' then ['\\', '%']
  else if c = '\n' then ['\\', 'n']
  else [c]

/-- One-pass substitution by a per-character table. -/

def concatMapChar (f : Char → List Char) : List Char → List Char
  | [] => []
  | c :: rest => f c ++ concatMapChar f rest

/-- The escaper the specification describes: backslash first, then
single-quote, colon, percent, comma, semicolon, square brackets, and the
newline mapping.  Declared only to be compared against the source's
`escape_drawtext`; it follows the spec sentence, not the code. -/

def escapeSpecClaimed (t : List Char) : List Char :=
  replaceChar '\n' ['\\', 'n'] <|
    replaceChar ']' ['\\', ']'] <|
      replaceChar '[' ['\\', '['] <|
        replaceChar ';' ['\\', ';'] <|
          replaceChar ',' ['\\', ','] <|
            replaceChar '%' ['\\', '%'] <|
              replaceChar ':' ['\\', ':'] <|
                replaceChar squote ['\\', squote] <|
                  replaceChar '\\' ['\\', '\\'] t

/-- Concatenation of the word lists of a list of strings. -/

def wordsFlat (ls : List (List Char)) : List (List Char) :=
  (ls.map splitWords).flatten

/- ### LineWrapper: `wrap_title` from `render_short.py` -/

/-- One iteration of the word-accumulation loop in `wrap_title`.
State is `(lines, cur)`.  Mirrors:
`if len(cur) + (1 if cur else 0) + len(w) <= max_chars: cur = (cur+" "+w).strip()`
`else: (if cur: lines.append(cur)); cur = w`. -/

def greedyStep (max_chars : ℕ) (st : List (List Char) × List Char) (w : List Char) :
    List (List Char) × List Char :=
  if st.2.length + (if st.2.isEmpty then 0 else 1) + w.length ≤ max_chars then
    (st.1, strip (st.2 ++ ' ' :: w))
  else
    (st.1 ++ if st.2.isEmpty then [] else [st.2], w)

/-- The `lines` list `wrap_title` has built when the word loop finishes
(including the final `if cur: lines.append(cur)`). -/

def greedyLines (title : List Char) (max_chars : ℕ) : List (List Char) :=
  let st := (splitWords title).foldl (greedyStep max_chars) ([], [])
  st.1 ++ if st.2.isEmpty then [] else [st.2]

/-- `wrap_title` from `render_short.py`: greedy wrap, then
`if len(lines) > 3: lines = lines[:2] + [" ".join(lines[2:])]`,
then `"\n".join(lines)`. -/

def wrap_title (title : List Char) (max_chars : ℕ) : List Char :=
  let lines := greedyLines title max_chars
  let lines := if 3 < lines.length then lines.take 2 ++ [joinSep ' ' (lines.drop 2)] else lines
  joinSep '\n' lines

/-- The visual lines of a rendered text block: Python `s.split("\n")`. -/

def linesOf (s : List Char) : List (List Char) :=
  splitOnChar '\n' s

/-- The words accumulated in a greedy-wrap state. -/

def wordsAcc (st : List (List Char) × List Char) : List (List Char) :=
  wordsFlat st.1 ++ splitWords st.2

/-- A line the greedy wrap may produce: no embedded newline, and either it
fits in `m` characters or it is a single word. -/

def GoodLine (m : ℕ) (l : List Char) : Prop :=
  '\n' ∉ l ∧ (l.length ≤ m ∨ splitWords l = [l])

/-- Invariant of the greedy-wrap loop state. -/

def GoodSt (m : ℕ) (st : List (List Char) × List Char) : Prop :=
  (∀ l ∈ st.1, GoodLine m l) ∧ (st.2 = [] ∨ GoodLine m st.2)

/- ### ScriptSegmenter: `split_script_into_chunks` from `render_short.py` -/

/-- The sentence list built by `split_script_into_chunks`:
`[p.strip() for p in s.replace("?","?.").replace("!","!.").split(".") if p.strip()]`.
The comprehension that follows in the source maps each fragment to itself in
both branches of its conditional, so it is the identity and adds nothing. -/

def sentencesOf (script : List Char) : List (List Char) :=
  ((splitOnChar '.'
      (replaceChar '!' ['!', '.']
        (replaceChar '?' ['?', '.'] (strip script)))).map strip).filter
    (fun p => p ≠ [])

/-- One iteration of the sentence-packing loop; state is `(chunks, cur)`. -/

def packStep (st : List (List Char) × List Char) (sent : List Char) :
    List (List Char) × List Char :=
  let candidate := strip (st.2 ++ ' ' :: sent)
  if candidate.length ≤ 170 then (st.1, candidate)
  else (st.1 ++ if st.2.isEmpty then [] else [st.2], sent)

/-- The greedy sentence packing into blocks of at most about 170 chars. -/

def greedyPack (sentences : List (List Char)) : List (List Char) :=
  let st := sentences.foldl packStep ([], [])
  st.1 ++ if st.2.isEmpty then [] else [st.2]

/-- Character lengths of adjacent chunk pairs, as scanned by the merge loop. -/

def pairLens (chunks : List (List Char)) : List ℕ :=
  (chunks.zip chunks.tail).map (fun p => p.1.length + p.2.length)

/-- Scan for the first index attaining the strict minimum (the source updates
its best index only on a strict improvement). -/

def firstMinIdxAux : ℕ → ℕ → ℕ → List ℕ → ℕ
  | _, bi, _, [] => bi
  | i, bi, bl, x :: xs =>
    if x < bl then firstMinIdxAux (i + 1) i x xs
    else firstMinIdxAux (i + 1) bi bl xs

/-- Index of the first smallest element of a list (0 on the empty list,
matching the source's `best_i = None → i = 0` fallback). -/

def firstMinIdx : List ℕ → ℕ
  | [] => 0
  | x :: xs => firstMinIdxAux 1 0 x xs

/-- Merge chunk `i` into chunk `i+1`:
`chunks[i] = (chunks[i] + " " + chunks[i+1]).strip(); del chunks[i+1]`.
If index `i+1` were out of range the source would raise `IndexError`; that is
unreachable for a positive target, and the model returns the list unchanged. -/

def mergeAt (i : ℕ) (chunks : List (List Char)) : List (List Char) :=
  match chunks[i]?, chunks[i + 1]? with
  | some a, some b => chunks.take i ++ strip (a ++ ' ' :: b) :: chunks.drop (i + 2)
  | _, _ => chunks

/-- The `while len(chunks) > target_chunks` merge loop, driven by fuel.
Each iteration removes exactly one chunk, so `chunks.length` iterations
always suffice; the `2 ≤ length` conjunct is implied by the loop guard
whenever the target is at least 1. -/

def mergeDownFuel : ℕ → ℕ → List (List Char) → List (List Char)
  | 0, _, chunks => chunks
  | fuel + 1, target, chunks =>
    if target < chunks.length ∧ 2 ≤ chunks.length then
      mergeDownFuel fuel target (mergeAt (firstMinIdx (pairLens chunks)) chunks)
    else chunks

/-- Merge adjacent chunk pairs until at most `target` chunks remain. -/

def mergeDown (target : ℕ) (chunks : List (List Char)) : List (List Char) :=
  mergeDownFuel chunks.length target chunks

/-- `split_script_into_chunks` from `render_short.py`. -/

def split_script_into_chunks (script : List Char) (target_chunks : ℕ) :
    List (List Char) :=
  let s := strip script
  let sentences := sentencesOf script
  if sentences.length ≤ 1 then [s]
  else mergeDown target_chunks (greedyPack sentences)

/- ### TimingAllocator: `allocate_timings` from `render_short.py` -/

/-- `max(3, len(c.split()))` — the word-count weight of a chunk. -/

def wordCountWeight (c : List Char) : ℕ := max 3 (splitWords c).length

/-- The interval-building loop of `allocate_timings`: running time `t`,
`dt = available * (w / wsum)` per weight. -/

def allocLoop (available wsum : ℚ) : ℚ → List ℕ → List (ℚ × ℚ)
  | _, [] => []
  | t, w :: ws =>
    let dt := available * ((w : ℚ) / wsum)
    (t, t + dt) :: allocLoop available wsum (t + dt) ws

/-- `if timings: timings[-1] = (timings[-1][0], min(total_dur - 0.05, end))`. -/

def clampLastEnd (bound : ℚ) : List (ℚ × ℚ) → List (ℚ × ℚ)
  | [] => []
  | [p] => [(p.1, min bound p.2)]
  | p :: q :: rest => p :: clampLastEnd bound (q :: rest)

/-- `allocate_timings` from `render_short.py`, Python floats modelled as
rationals (`0.4 = 2/5`, `0.2 = 1/5`, `0.5 = 1/2`, `0.05 = 1/20`);
the call site uses `lead_in = 2/5` and `tail_out = 1/5` (the defaults). -/

def allocate_timings (chunks : List (List Char)) (total_dur lead_in tail_out : ℚ) :
    List (ℚ × ℚ) :=
  let available := max (1/2) (total_dur - lead_in - tail_out)
  let weights := chunks.map wordCountWeight
  let wsum : ℕ := weights.sum
  clampLastEnd (total_dur - 1/20) (allocLoop available (wsum : ℚ) lead_in weights)

/- ### CompositionGraphBuilder: the filter-graph assembly in `main` -/

/-- A layer of the composition graph `main` assembles: the blended
background, the boxed title drawtext, one caption drawtext per chunk
(visible between its start and end), and the progress bar. -/

inductive CompLayer where
  | background : CompLayer
  | titleCard : List Char → CompLayer
  | caption : List Char → ℚ → ℚ → CompLayer
  | progressBar : CompLayer
deriving DecidableEq

/-- The ordered layer chain built in `main` for a title, script, duration:
background, then the title drawtext over it, then the chained caption
drawtexts (`zip(chunks, times)`), then the progress bar on top.  Duration
flooring (`max(8.0, dur)`) happens before this point in `main` and is a
hypothesis of the theorems that need it. -/

def buildGraph (title script : List Char) (dur : ℚ) : List CompLayer :=
  let title_wrapped := wrap_title title 28
  let chunks := split_script_into_chunks script 8
  let times := allocate_timings chunks dur (2/5) (1/5)
  CompLayer.background
    :: CompLayer.titleCard (escape_drawtext title_wrapped)
    :: ((chunks.zip times).map fun ct =>
          CompLayer.caption (escape_drawtext ct.1) ct.2.1 ct.2.2)
      ++ [CompLayer.progressBar]

/-- Is this layer a caption layer? -/

def isCaption : CompLayer → Bool
  | CompLayer.caption _ _ _ => true
  | _ => false

/-- Number of caption layers in a graph. -/

def captionCount (g : List CompLayer) : ℕ := (g.filter isCaption).length

/-- Texts of the caption layers, in order. -/

def captionTexts : List CompLayer → List (List Char)
  | [] => []
  | CompLayer.caption t _ _ :: rest => t :: captionTexts rest
  | _ :: rest => captionTexts rest

/-- Texts of the title layers, in order. -/

def titleTexts : List CompLayer → List (List Char)
  | [] => []
  | CompLayer.titleCard t :: rest => t :: titleTexts rest
  | _ :: rest => titleTexts rest

/-! ### Lemmas and claim theorems -/

/- ### Basic lemmas about the string operations -/

theorem replaceChar_append (pat : Char) (rep : List Char) (a b : List Char) :
    replaceChar pat rep (a ++ b) = replaceChar pat rep a ++ replaceChar pat rep b := by
  induction a with
  | nil => rfl
  | cons c rest ih => simp [replaceChar, ih]

theorem concatMapChar_append (f : Char → List Char) (a b : List Char) :
    concatMapChar f (a ++ b) = concatMapChar f a ++ concatMapChar f b := by
  induction a with
  | nil => rfl
  | cons c rest ih => simp [concatMapChar, ih]

theorem escape_drawtext_append (a b : List Char) :
    escape_drawtext (a ++ b) = escape_drawtext a ++ escape_drawtext b := by
  simp [escape_drawtext, replaceChar_append]

theorem escape_drawtext_singleton (c : Char) :
    escape_drawtext [c] = escChar c := by
  by_cases h1 : c = '\\'
  · subst h1; rfl
  · by_cases h2 : c = ':'
    · subst h2; rfl
    · by_cases h3 : c = squote
      · subst h3; rfl
      · by_cases h4 : c = '%'
        · subst h4; rfl
        · by_cases h5 : c = '\n'
          · subst h5; rfl
          · simp [escape_drawtext, replaceChar, escChar, h1, h2, h3, h4, h5]

theorem escape_drawtext_eq_concatMapChar (t : List Char) :
    escape_drawtext t = concatMapChar escChar t := by
  induction t with
  | nil => rfl
  | cons c rest ih =>
    have h : escape_drawtext (c :: rest) = escape_drawtext [c] ++ escape_drawtext rest := by
      simpa using escape_drawtext_append [c] rest
    rw [h, escape_drawtext_singleton, ih]; rfl

theorem splitOnPred_ne_nil (p : Char → Bool) (l : List Char) : splitOnPred p l ≠ [] := by
  induction l with
  | nil => simp [splitOnPred]
  | cons c rest ih =>
    by_cases h : p c
    · simp [splitOnPred, h]
    · simp only [splitOnPred, h, Bool.false_eq_true, if_false]
      cases hrec : splitOnPred p rest with
      | nil => simp
      | cons w ws => simp

theorem splitOnPred_append (p : Char → Bool) (a b : List Char) (c : Char) (hc : p c = true) :
    splitOnPred p (a ++ c :: b) = splitOnPred p a ++ splitOnPred p b := by
  induction a with
  | nil => simp [splitOnPred, hc]
  | cons d a' ih =>
    by_cases hd : p d
    · simp [splitOnPred, hd, ih]
    · simp only [List.cons_append, splitOnPred, hd, Bool.false_eq_true, if_false,
        List.append_eq]
      cases hrec : splitOnPred p a' with
      | nil => exact absurd hrec (splitOnPred_ne_nil p a')
      | cons w ws => rw [ih, hrec]; simp

theorem splitOnPred_of_forall_not (p : Char → Bool) (l : List Char)
    (h : ∀ c ∈ l, p c = false) : splitOnPred p l = [l] := by
  induction l with
  | nil => rfl
  | cons c rest ih =>
    have hc : p c = false := h c (by simp)
    have hrest : splitOnPred p rest = [rest] := ih fun d hd => h d (by simp [hd])
    simp [splitOnPred, hc, hrest]

theorem mem_mem_splitOnPred (p : Char → Bool) (l : List Char) :
    ∀ w ∈ splitOnPred p l, ∀ c ∈ w, p c = false := by
  induction l with
  | nil => intro w hw; simp [splitOnPred] at hw; simp [hw]
  | cons c rest ih =>
    intro w hw
    by_cases hc : p c
    · simp only [splitOnPred, hc, if_true, List.mem_cons] at hw
      rcases hw with h | h
      · simp [h]
      · exact ih w h
    · simp only [splitOnPred, hc, Bool.false_eq_true, if_false] at hw
      cases hrec : splitOnPred p rest with
      | nil => exact absurd hrec (splitOnPred_ne_nil p rest)
      | cons v vs =>
        rw [hrec] at hw
        rcases List.mem_cons.mp hw with h | h
        · subst h
          intro d hd
          rcases List.mem_cons.mp hd with h | h
          · subst h; simpa using hc
          · exact ih v (by rw [hrec]; simp) d h
        · exact ih w (by rw [hrec]; simp [h])

theorem splitWords_nil : splitWords [] = [] := rfl

theorem splitWords_cons_space {c : Char} (hc : isSpace c = true) (l : List Char) :
    splitWords (c :: l) = splitWords l := by
  simp [splitWords, splitOnPred, hc]

theorem splitWords_append_space {c : Char} (hc : isSpace c = true) (a b : List Char) :
    splitWords (a ++ c :: b) = splitWords a ++ splitWords b := by
  simp [splitWords, splitOnPred_append isSpace a b c hc]

theorem splitWords_append_space_nil {c : Char} (hc : isSpace c = true) (a : List Char) :
    splitWords (a ++ [c]) = splitWords a := by
  simpa [splitWords_nil] using splitWords_append_space hc a []

theorem splitWords_dropWhile (l : List Char) :
    splitWords (l.dropWhile isSpace) = splitWords l := by
  induction l with
  | nil => rfl
  | cons c rest ih =>
    by_cases hc : isSpace c
    · rw [List.dropWhile_cons, if_pos hc, ih, splitWords_cons_space hc]
    · rw [List.dropWhile_cons, if_neg hc]

theorem splitWords_dropWhile_reverse (r : List Char) :
    splitWords (r.dropWhile isSpace).reverse = splitWords r.reverse := by
  induction r with
  | nil => rfl
  | cons c rest ih =>
    by_cases hc : isSpace c
    · rw [List.dropWhile_cons, if_pos hc, ih, List.reverse_cons,
        splitWords_append_space_nil hc]
    · rw [List.dropWhile_cons, if_neg hc]

theorem splitWords_strip (l : List Char) : splitWords (strip l) = splitWords l := by
  unfold strip
  rw [splitWords_dropWhile_reverse, List.reverse_reverse, splitWords_dropWhile]

theorem mem_splitWords {w : List Char} {l : List Char} (hw : w ∈ splitWords l) :
    w ≠ [] ∧ ∀ c ∈ w, isSpace c = false := by
  unfold splitWords at hw
  rw [List.mem_filter] at hw
  refine ⟨by simpa using hw.2, fun c hc => ?_⟩
  exact mem_mem_splitOnPred isSpace l w hw.1 c hc

theorem splitWords_of_word {w : List Char} (hne : w ≠ [])
    (hns : ∀ c ∈ w, isSpace c = false) : splitWords w = [w] := by
  unfold splitWords
  rw [splitOnPred_of_forall_not isSpace w hns]
  simp [hne]

theorem strip_length_le (l : List Char) : (strip l).length ≤ l.length := by
  unfold strip
  calc ((l.dropWhile isSpace).reverse.dropWhile isSpace).reverse.length
      = ((l.dropWhile isSpace).reverse.dropWhile isSpace).length := List.length_reverse _
    _ ≤ (l.dropWhile isSpace).reverse.length :=
        (List.dropWhile_sublist isSpace).length_le
    _ = (l.dropWhile isSpace).length := List.length_reverse _
    _ ≤ l.length := (List.dropWhile_sublist isSpace).length_le

theorem mem_of_mem_dropWhile {c : Char} {p : Char → Bool} {l : List Char}
    (h : c ∈ l.dropWhile p) : c ∈ l := by
  induction l with
  | nil => simp at h
  | cons d rest ih =>
    rw [List.dropWhile_cons] at h
    by_cases hd : p d
    · rw [if_pos hd] at h; exact List.mem_cons_of_mem d (ih h)
    · rw [if_neg hd] at h; exact h

theorem mem_of_mem_strip {c : Char} {l : List Char} (h : c ∈ strip l) : c ∈ l := by
  unfold strip at h
  rw [List.mem_reverse] at h
  have h2 := mem_of_mem_dropWhile h
  rw [List.mem_reverse] at h2
  exact mem_of_mem_dropWhile h2

theorem strip_cons_space {c : Char} (hc : isSpace c = true) (l : List Char) :
    strip (c :: l) = strip l := by
  unfold strip
  rw [List.dropWhile_cons, if_pos hc]

theorem splitWords_joinSep {sep : Char} (hs : isSpace sep = true) (ls : List (List Char)) :
    splitWords (joinSep sep ls) = wordsFlat ls := by
  induction ls with
  | nil => rfl
  | cons l ls ih =>
    cases ls with
    | nil => simp [joinSep, wordsFlat]
    | cons l' ls' =>
      rw [joinSep, splitWords_append_space hs, ih]
      simp [wordsFlat]

theorem not_mem_joinSep {sep x : Char} (hx : x ≠ sep) (ls : List (List Char))
    (h : ∀ l ∈ ls, x ∉ l) : x ∉ joinSep sep ls := by
  induction ls with
  | nil => simp [joinSep]
  | cons l ls ih =>
    cases ls with
    | nil => simpa [joinSep] using h l (by simp)
    | cons l' ls' =>
      rw [joinSep]
      intro hmem
      rcases List.mem_append.mp hmem with hmem | hmem
      · exact h l (by simp) hmem
      · rcases List.mem_cons.mp hmem with hmem | hmem
        · exact hx hmem
        · exact ih (fun l hl => h l (List.mem_cons_of_mem _ hl)) hmem

theorem splitOnChar_joinSep {sep : Char} (ls : List (List Char)) (hne : ls ≠ [])
    (h : ∀ l ∈ ls, sep ∉ l) : splitOnChar sep (joinSep sep ls) = ls := by
  induction ls with
  | nil => exact absurd rfl hne
  | cons l ls ih =>
    cases ls with
    | nil =>
      unfold splitOnChar joinSep
      rw [splitOnPred_of_forall_not]
      intro c hc
      simp only [beq_eq_false_iff_ne, ne_eq]
      intro hceq
      exact h l (by simp) (hceq ▸ hc)
    | cons l' ls' =>
      unfold splitOnChar joinSep
      rw [splitOnPred_append _ _ _ sep (by simp), splitOnPred_of_forall_not]
      · have := ih (by simp) (fun m hm => h m (List.mem_cons_of_mem _ hm))
        unfold splitOnChar at this
        rw [this]
        simp
      · intro c hc
        simp only [beq_eq_false_iff_ne, ne_eq]
        intro hceq
        exact h l (by simp) (hceq ▸ hc)

/- ### Lemmas about the greedy wrap -/

theorem wordsFlat_append (a b : List (List Char)) :
    wordsFlat (a ++ b) = wordsFlat a ++ wordsFlat b := by
  simp [wordsFlat]

theorem isSpace_space : isSpace ' ' = true := by decide

theorem isSpace_newline : isSpace '\n' = true := by decide

theorem wordsAcc_greedyStep (m : ℕ) (st : List (List Char) × List Char)
    (w : List Char) (hne : w ≠ []) (hns : ∀ c ∈ w, isSpace c = false) :
    wordsAcc (greedyStep m st w) = wordsAcc st ++ [w] := by
  have hw : splitWords w = [w] := splitWords_of_word hne hns
  unfold greedyStep
  by_cases hcond : st.2.length + (if st.2.isEmpty then 0 else 1) + w.length ≤ m
  · rw [if_pos hcond]
    unfold wordsAcc
    simp only
    rw [splitWords_strip, splitWords_append_space isSpace_space, hw, List.append_assoc]
  · rw [if_neg hcond]
    unfold wordsAcc
    by_cases hcur : st.2.isEmpty
    · rw [List.isEmpty_iff] at hcur
      simp [hcur, hw, splitWords_nil]
    · rw [Bool.not_eq_true] at hcur
      simp only [hcur, Bool.false_eq_true, if_false]
      rw [wordsFlat_append, hw]
      simp [wordsFlat]

theorem wordsAcc_foldl (m : ℕ) (ws : List (List Char)) :
    ∀ st : List (List Char) × List Char,
      (∀ w ∈ ws, w ≠ [] ∧ ∀ c ∈ w, isSpace c = false) →
      wordsAcc (ws.foldl (greedyStep m) st) = wordsAcc st ++ ws := by
  induction ws with
  | nil => intro st _; simp
  | cons w ws ih =>
    intro st h
    have hw := h w (by simp)
    rw [List.foldl_cons, ih _ (fun v hv => h v (by simp [hv])),
      wordsAcc_greedyStep m st w hw.1 hw.2]
    simp

theorem wordsFlat_greedyLines (t : List Char) (m : ℕ) :
    wordsFlat (greedyLines t m) = splitWords t := by
  unfold greedyLines
  have h := wordsAcc_foldl m (splitWords t) ([], [])
    (fun w hw => mem_splitWords hw)
  set st := (splitWords t).foldl (greedyStep m) ([], []) with hst
  have h0 : wordsAcc ([], ([] : List Char)) = [] := by simp [wordsAcc, wordsFlat, splitWords_nil]
  rw [h0] at h
  simp only [List.nil_append] at h
  by_cases hcur : st.2.isEmpty
  · rw [List.isEmpty_iff] at hcur
    unfold wordsAcc at h
    rw [hcur, splitWords_nil, List.append_nil] at h
    simp only [hcur]
    rw [← h]
    simp [wordsFlat]
  · simp only [hcur, Bool.false_eq_true, if_false]
    rw [wordsFlat_append, ← h]
    simp [wordsAcc, wordsFlat]

theorem splitWords_wrap_title (t : List Char) (m : ℕ) :
    splitWords (wrap_title t m) = splitWords t := by
  unfold wrap_title
  rw [splitWords_joinSep isSpace_newline]
  by_cases hlen : 3 < (greedyLines t m).length
  · rw [if_pos hlen, wordsFlat_append, ← wordsFlat_greedyLines t m]
    have : wordsFlat [joinSep ' ' ((greedyLines t m).drop 2)]
        = wordsFlat ((greedyLines t m).drop 2) := by
      simp only [wordsFlat, List.map_cons, List.map_nil, List.flatten]
      rw [splitWords_joinSep isSpace_space]
      simp [wordsFlat]
    rw [this, ← wordsFlat_append, List.take_append_drop]
  · rw [if_neg hlen, wordsFlat_greedyLines]

theorem ne_newline_of_not_space {c : Char} (h : isSpace c = false) : c ≠ '\n' := by
  intro hc
  rw [hc, isSpace_newline] at h
  exact Bool.true_eq_false.mp h

theorem newline_not_mem_strip_cat {cur w : List Char}
    (hcur : '\n' ∉ cur) (hw : ∀ c ∈ w, isSpace c = false) :
    '\n' ∉ strip (cur ++ ' ' :: w) := by
  intro hmem
  have h := mem_of_mem_strip hmem
  rcases List.mem_append.mp h with h | h
  · exact hcur h
  · rcases List.mem_cons.mp h with h | h
    · exact absurd h.symm (by decide)
    · exact ne_newline_of_not_space (hw _ h) rfl

theorem goodSt_greedyStep (m : ℕ) (st : List (List Char) × List Char)
    (w : List Char) (hne : w ≠ []) (hns : ∀ c ∈ w, isSpace c = false)
    (hst : GoodSt m st) : GoodSt m (greedyStep m st w) := by
  obtain ⟨hlines, hcur⟩ := hst
  unfold greedyStep
  by_cases hcond : st.2.length + (if st.2.isEmpty then 0 else 1) + w.length ≤ m
  · rw [if_pos hcond]
    refine ⟨hlines, Or.inr ⟨?_, Or.inl ?_⟩⟩
    · rcases hcur with h | h
      · exact newline_not_mem_strip_cat (by simp [h]) hns
      · exact newline_not_mem_strip_cat h.1 hns
    · by_cases hemp : st.2.isEmpty
      · rw [List.isEmpty_iff] at hemp
        rw [hemp] at hcond ⊢
        simp only [List.length_nil, List.isEmpty_nil, if_true] at hcond
        rw [List.nil_append, strip_cons_space isSpace_space]
        calc (strip w).length ≤ w.length := strip_length_le w
          _ ≤ m := by omega
      · rw [Bool.not_eq_true, List.isEmpty_eq_false_iff_exists_mem] at hemp
        have hpad : (if st.2.isEmpty then 0 else 1) = 1 := by
          rcases hemp with ⟨x, hx⟩
          cases hsc : st.2 with
          | nil => rw [hsc] at hx; simp at hx
          | cons a as => simp
        rw [hpad] at hcond
        calc (strip (st.2 ++ ' ' :: w)).length
            ≤ (st.2 ++ ' ' :: w).length := strip_length_le _
          _ = st.2.length + 1 + w.length := by simp [List.length_append]; omega
          _ ≤ m := hcond
  · rw [if_neg hcond]
    constructor
    · intro l hl
      rcases List.mem_append.mp hl with h | h
      · exact hlines l h
      · by_cases hemp : st.2.isEmpty
        · rw [hemp] at h; simp at h
        · rw [Bool.not_eq_true] at hemp
          rw [hemp] at h
          simp only [Bool.false_eq_true, if_false, List.mem_singleton] at h
          subst h
          rcases hcur with hc | hc
          · rw [hc] at hemp; simp at hemp
          · exact hc
    · refine Or.inr ⟨?_, Or.inr (splitWords_of_word hne hns)⟩
      intro hmem
      exact ne_newline_of_not_space (hns _ hmem) rfl

theorem goodSt_foldl (m : ℕ) (ws : List (List Char)) :
    ∀ st : List (List Char) × List Char,
      (∀ w ∈ ws, w ≠ [] ∧ ∀ c ∈ w, isSpace c = false) →
      GoodSt m st → GoodSt m (ws.foldl (greedyStep m) st) := by
  induction ws with
  | nil => intro st _ hst; exact hst
  | cons w ws ih =>
    intro st h hst
    have hw := h w (by simp)
    exact ih _ (fun v hv => h v (by simp [hv]))
      (goodSt_greedyStep m st w hw.1 hw.2 hst)

theorem goodLine_greedyLines (t : List Char) (m : ℕ) :
    ∀ l ∈ greedyLines t m, GoodLine m l := by
  unfold greedyLines
  have hinv : GoodSt m ((splitWords t).foldl (greedyStep m) ([], [])) :=
    goodSt_foldl m (splitWords t) ([], [])
      (fun w hw => mem_splitWords hw)
      ⟨by simp, Or.inl rfl⟩
  set st := (splitWords t).foldl (greedyStep m) ([], [])
  intro l hl
  rcases List.mem_append.mp hl with h | h
  · exact hinv.1 l h
  · by_cases hemp : st.2.isEmpty
    · rw [hemp] at h; simp at h
    · rw [Bool.not_eq_true] at hemp
      rw [hemp] at h
      simp only [Bool.false_eq_true, if_false, List.mem_singleton] at h
      subst h
      rcases hinv.2 with hc | hc
      · rw [hc] at hemp; simp at hemp
      · exact hc

theorem linesOf_joinSep_newline (ls : List (List Char)) (hne : ls ≠ [])
    (h : ∀ l ∈ ls, '\n' ∉ l) : linesOf (joinSep '\n' ls) = ls :=
  splitOnChar_joinSep ls hne h

theorem linesOf_wrap_title_overflow (t : List Char) (m : ℕ)
    (hlen : 3 < (greedyLines t m).length) :
    linesOf (wrap_title t m)
      = (greedyLines t m).take 2 ++ [joinSep ' ' ((greedyLines t m).drop 2)] := by
  unfold wrap_title
  simp only [if_pos hlen]
  apply linesOf_joinSep_newline
  · simp
  · intro l hl
    rcases List.mem_append.mp hl with h | h
    · exact (goodLine_greedyLines t m l (List.mem_of_mem_take h)).1
    · rw [List.mem_singleton] at h
      subst h
      exact not_mem_joinSep (by decide) _
        (fun l hl => (goodLine_greedyLines t m l (List.mem_of_mem_drop hl)).1)

theorem linesOf_wrap_title_no_overflow (t : List Char) (m : ℕ)
    (hlen : ¬ 3 < (greedyLines t m).length) (hne : greedyLines t m ≠ []) :
    linesOf (wrap_title t m) = greedyLines t m := by
  unfold wrap_title
  simp only [if_neg hlen]
  exact linesOf_joinSep_newline _ hne
    (fun l hl => (goodLine_greedyLines t m l hl).1)

theorem linesOf_wrap_title_empty (t : List Char) (m : ℕ)
    (hne : greedyLines t m = []) : linesOf (wrap_title t m) = [[]] := by
  unfold wrap_title
  rw [hne]
  simp only [List.length_nil, if_neg (by omega : ¬ 3 < 0)]
  rfl

/- ### Claim theorems: LineWrapper and TextEscaper -/

/-- Claim C10: for every title and every positive character limit, the
whitespace-separated word sequence of the wrapped output equals the word
sequence of the input — wrapping only inserts line breaks or spaces and
never alters, drops, or reorders a word. -/

theorem wrap_title_preserves_words (t : List Char) (m : ℕ) (_hm : 0 < m) :
    splitWords (wrap_title t m) = splitWords t :=
  splitWords_wrap_title t m

/-- Witness for `wrap_title_preserves_words` at a concrete input. -/

theorem wrap_title_preserves_words_witness :
    0 < 5 ∧ splitWords (wrap_title ("hello brave new world".toList) 5)
      = splitWords ("hello brave new world".toList) :=
  ⟨by decide, wrap_title_preserves_words ("hello brave new world".toList) 5 (by decide)⟩

/-- Claim C4 (amended): for every input and character limit (the line cap is
the constant 3 in the source), the output has at most 3 lines; every line
except possibly the final overflow line fits the limit or is a single word;
when the greedy pass yields more than 3 lines, the first 2 lines are kept
verbatim and the remaining lines are space-joined into one overflow line. -/

theorem wrap_title_line_bounds (t : List Char) (m : ℕ) :
    (linesOf (wrap_title t m)).length ≤ 3 ∧
    (∀ line ∈ (linesOf (wrap_title t m)).dropLast,
        line.length ≤ m ∨ splitWords line = [line]) ∧
    ((greedyLines t m).length ≤ 3 →
      ∀ line ∈ linesOf (wrap_title t m), line.length ≤ m ∨ splitWords line = [line]) ∧
    (3 < (greedyLines t m).length →
      linesOf (wrap_title t m)
        = (greedyLines t m).take 2 ++ [joinSep ' ' ((greedyLines t m).drop 2)]) := by
  by_cases hlen : 3 < (greedyLines t m).length
  · have hov := linesOf_wrap_title_overflow t m hlen
    refine ⟨?_, ?_, fun h => absurd hlen (by omega), fun _ => hov⟩
    · rw [hov]
      simp only [List.length_append, List.length_take, List.length_cons, List.length_nil]
      omega
    · rw [hov, List.dropLast_concat]
      intro line hline
      exact (goodLine_greedyLines t m line (List.mem_of_mem_take hline)).2
  · have hall : ∀ line ∈ linesOf (wrap_title t m),
        line.length ≤ m ∨ splitWords line = [line] := by
      by_cases hne : greedyLines t m = []
      · rw [linesOf_wrap_title_empty t m hne]
        intro line hline
        rw [List.mem_singleton] at hline
        subst hline
        exact Or.inl (by simp)
      · rw [linesOf_wrap_title_no_overflow t m hlen hne]
        intro line hline
        exact (goodLine_greedyLines t m line hline).2
    refine ⟨?_, ?_, fun _ => hall, fun h => absurd h hlen⟩
    · by_cases hne : greedyLines t m = []
      · rw [linesOf_wrap_title_empty t m hne]; simp
      · rw [linesOf_wrap_title_no_overflow t m hlen hne]; omega
    · intro line hline
      exact hall line ((List.dropLast_sublist _).subset hline)

/-- Witness for `wrap_title_line_bounds` at a concrete input. -/

theorem wrap_title_line_bounds_witness :
    (linesOf (wrap_title ("alpha beta gamma delta".toList) 6)).length ≤ 3 ∧
    (∀ line ∈ (linesOf (wrap_title ("alpha beta gamma delta".toList) 6)).dropLast,
        line.length ≤ 6 ∨ splitWords line = [line]) ∧
    ((greedyLines ("alpha beta gamma delta".toList) 6).length ≤ 3 →
      ∀ line ∈ linesOf (wrap_title ("alpha beta gamma delta".toList) 6),
        line.length ≤ 6 ∨ splitWords line = [line]) ∧
    (3 < (greedyLines ("alpha beta gamma delta".toList) 6).length →
      linesOf (wrap_title ("alpha beta gamma delta".toList) 6)
        = (greedyLines ("alpha beta gamma delta".toList) 6).take 2
          ++ [joinSep ' ' ((greedyLines ("alpha beta gamma delta".toList) 6).drop 2)]) :=
  wrap_title_line_bounds ("alpha beta gamma delta".toList) 6

/-- Claim C4 counterexample: with limit 2 and input "aa bb cc dd", the final
overflow line "cc dd" is 5 characters long and is not a single word, so the
claim's clause that every line fits the limit unless it is a single word
fails as stated. -/

theorem wrap_title_overflow_line_counterexample :
    linesOf (wrap_title ("aa bb cc dd".toList) 2)
      = ["aa".toList, "bb".toList, "cc dd".toList] ∧
    ¬(("cc dd".toList).length ≤ 2 ∨ splitWords ("cc dd".toList) = ["cc dd".toList]) := by
  decide

/-- Claim C7 counterexample: the scenario title wraps into exactly 2 lines at
28 chars/line, not 3 as claimed. -/

theorem wrap_scenario_counterexample :
    (linesOf (wrap_title ("RRSP vs TFSA: Which Wins in 2025?".toList) 28)).length = 2 ∧
    (linesOf (wrap_title ("RRSP vs TFSA: Which Wins in 2025?".toList) 28)).length ≠ 3 := by
  decide

/-- Claim C7 (amended): the scenario title wraps into exactly 2 lines, each
at most 28 characters; the greedy pass yields only 2 lines, so no overflow
merging occurs. -/

theorem wrap_scenario_two_lines :
    linesOf (wrap_title ("RRSP vs TFSA: Which Wins in 2025?".toList) 28)
      = ["RRSP vs TFSA: Which Wins in".toList, "2025?".toList] ∧
    ("RRSP vs TFSA: Which Wins in".toList).length ≤ 28 ∧
    ("2025?".toList).length ≤ 28 ∧
    (greedyLines ("RRSP vs TFSA: Which Wins in 2025?".toList) 28).length = 2 := by
  decide

/-- Claim C5 counterexample: the source escaper leaves a comma unchanged,
while the spec's escaper (which also escapes comma, semicolon and brackets)
would escape it. -/

theorem escape_comma_counterexample :
    escape_drawtext [','] = [','] ∧ escapeSpecClaimed [','] = ['\\', ','] ∧
    escape_drawtext [','] ≠ escapeSpecClaimed [','] := by
  decide

/-- Claim C5 (amended): the escaper escapes backslash first, then colon,
then single-quote, then percent, and maps newlines to a literal backslash-n;
the whole chain is one per-character substitution, under which comma,
semicolon and square brackets pass through unchanged. -/

theorem escape_drawtext_characterization :
    (∀ t, escape_drawtext t = concatMapChar escChar t) ∧
    escChar '\\' = ['\\', '\\'] ∧ escChar ':' = ['\\', ':'] ∧
    escChar squote = ['\\', squote] ∧ escChar '%' = ['\\', '%'] ∧
    escChar '\n' = ['\\', 'n'] ∧
    escChar ',' = [','] ∧ escChar ';' = [';'] ∧
    escChar '[' = ['['] ∧ escChar ']' = [']'] := by
  refine ⟨escape_drawtext_eq_concatMapChar, ?_⟩
  repeat constructor

/- ### Lemmas about `allocate_timings` -/

theorem allocLoop_length (a s : ℚ) (ws : List ℕ) :
    ∀ t, (allocLoop a s t ws).length = ws.length := by
  induction ws with
  | nil => intro t; rfl
  | cons w ws ih => intro t; simp [allocLoop, ih]

theorem allocLoop_head_fst (a s : ℚ) (ws : List ℕ) (h : ws ≠ []) (t : ℚ) :
    (allocLoop a s t ws).head?.map Prod.fst = some t := by
  cases ws with
  | nil => exact absurd rfl h
  | cons w ws => rfl

theorem allocLoop_chain_bb (a s : ℚ) (ws : List ℕ) :
    ∀ t, List.Chain' (fun p q : ℚ × ℚ => q.1 = p.2) (allocLoop a s t ws) := by
  induction ws with
  | nil => intro t; exact List.chain'_nil
  | cons w ws ih =>
    intro t
    rw [allocLoop, List.chain'_cons']
    refine ⟨?_, ih _⟩
    intro y hy
    cases ws with
    | nil => simp [allocLoop] at hy
    | cons w' ws' =>
      rw [allocLoop] at hy
      simp only [List.head?_cons, Option.mem_def, Option.some.injEq] at hy
      rw [← hy]

theorem allocLoop_chain_lt (a s : ℚ) (ha : 0 < a) (hs : 0 < s) (ws : List ℕ)
    (hws : ∀ w ∈ ws, 0 < w) :
    ∀ t, List.Chain' (fun p q : ℚ × ℚ => p.1 < q.1) (allocLoop a s t ws) := by
  induction ws with
  | nil => intro t; exact List.chain'_nil
  | cons w ws ih =>
    intro t
    rw [allocLoop, List.chain'_cons']
    refine ⟨?_, ih (fun v hv => hws v (by simp [hv])) _⟩
    intro y hy
    cases ws with
    | nil => simp [allocLoop] at hy
    | cons w' ws' =>
      rw [allocLoop] at hy
      simp only [List.head?_cons, Option.mem_def, Option.some.injEq] at hy
      rw [← hy]
      simp only
      have hw : (0 : ℚ) < (w : ℚ) := by
        have := hws w (by simp)
        exact_mod_cast this
      have : 0 < a * ((w : ℚ) / s) := mul_pos ha (div_pos hw hs)
      linarith

theorem allocLoop_mem_bounds (a s : ℚ) (ha : 0 < a) (hs : 0 < s)
    (ws : List ℕ) (hws : ∀ w ∈ ws, 0 < w) :
    ∀ t, ∀ p ∈ allocLoop a s t ws,
      t ≤ p.1 ∧ p.1 < p.2 ∧ p.2 ≤ t + a * (((ws.sum : ℕ) : ℚ) / s) := by
  induction ws with
  | nil => intro t p hp; simp [allocLoop] at hp
  | cons w ws ih =>
    intro t p hp
    have hw : (0 : ℚ) < (w : ℚ) := by exact_mod_cast hws w (by simp)
    have hdt : 0 < a * ((w : ℚ) / s) := mul_pos ha (div_pos hw hs)
    have hsumnn : (0 : ℚ) ≤ ((ws.sum : ℕ) : ℚ) := by positivity
    have hrest : a * (((ws.sum : ℕ) : ℚ) / s) ≥ 0 := by positivity
    have hcast : ((((w :: ws).sum : ℕ)) : ℚ) = (w : ℚ) + ((ws.sum : ℕ) : ℚ) := by
      rw [List.sum_cons, Nat.cast_add]
    rw [allocLoop] at hp
    rcases List.mem_cons.mp hp with h | h
    · subst h
      refine ⟨le_refl t, by simpa using hdt, ?_⟩
      simp only
      rw [hcast]
      have hdiv : (w : ℚ) / s ≤ ((w : ℚ) + ((ws.sum : ℕ) : ℚ)) / s :=
        (div_le_div_iff_of_pos_right hs).mpr (by linarith)
      have hmul := mul_le_mul_of_nonneg_left hdiv ha.le
      linarith
    · obtain ⟨h1, h2, h3⟩ := ih (fun v hv => hws v (by simp [hv])) _ p h
      refine ⟨by linarith, h2, ?_⟩
      calc p.2 ≤ t + a * ((w : ℚ) / s) + a * (((ws.sum : ℕ) : ℚ) / s) := h3
        _ = t + a * ((((w :: ws).sum : ℕ) : ℚ) / s) := by rw [hcast]; ring

theorem allocLoop_getLast_snd (a s : ℚ) (ws : List ℕ) (h : ws ≠ []) :
    ∀ t, ∀ p ∈ (allocLoop a s t ws).getLast?,
      p.2 = t + a * (((ws.sum : ℕ) : ℚ) / s) := by
  induction ws with
  | nil => exact absurd rfl h
  | cons w ws ih =>
    intro t p hp
    cases ws with
    | nil =>
      simp only [allocLoop, List.getLast?_singleton, Option.mem_def,
        Option.some.injEq] at hp
      rw [← hp]
      have hcast : ((([w].sum : ℕ)) : ℚ) = (w : ℚ) := by simp
      rw [hcast]
    | cons w' ws' =>
      rw [allocLoop, allocLoop, List.getLast?_cons_cons, ← allocLoop] at hp
      have hlast := ih (by simp) _ p hp
      have hcast : ((((w :: w' :: ws').sum : ℕ)) : ℚ)
          = (w : ℚ) + (((w' :: ws').sum : ℕ) : ℚ) := by
        rw [List.sum_cons, Nat.cast_add]
      rw [hlast, hcast]
      ring

theorem allocLoop_sum_sub (a s : ℚ) (ws : List ℕ) :
    ∀ t, ((allocLoop a s t ws).map (fun p => p.2 - p.1)).sum
      = a * (((ws.sum : ℕ) : ℚ) / s) := by
  induction ws with
  | nil => intro t; simp [allocLoop]
  | cons w ws ih =>
    intro t
    rw [allocLoop]
    simp only [List.map_cons, List.sum_cons, ih]
    rw [Nat.cast_add]
    ring

theorem clampLastEnd_length (b : ℚ) :
    ∀ T : List (ℚ × ℚ), (clampLastEnd b T).length = T.length := by
  intro T
  induction T with
  | nil => rfl
  | cons p rest ih =>
    cases rest with
    | nil => rfl
    | cons q rest' => simp only [clampLastEnd, List.length_cons] at ih ⊢; omega

theorem clampLastEnd_map_fst (b : ℚ) :
    ∀ T : List (ℚ × ℚ), (clampLastEnd b T).map Prod.fst = T.map Prod.fst := by
  intro T
  induction T with
  | nil => rfl
  | cons p rest ih =>
    cases rest with
    | nil => rfl
    | cons q rest' =>
      simp only [clampLastEnd, List.map_cons] at ih ⊢
      rw [ih]

theorem clampLastEnd_head_fst (b : ℚ) (T : List (ℚ × ℚ)) :
    (clampLastEnd b T).head?.map Prod.fst = T.head?.map Prod.fst := by
  cases T with
  | nil => rfl
  | cons p rest => cases rest with
    | nil => rfl
    | cons q rest' => rfl

theorem clampLastEnd_getLast (b : ℚ) :
    ∀ (T : List (ℚ × ℚ)) (p : ℚ × ℚ), T.getLast? = some p →
      (clampLastEnd b T).getLast? = some (p.1, min b p.2) := by
  intro T
  induction T with
  | nil => intro p hp; simp at hp
  | cons x rest ih =>
    intro p hp
    cases rest with
    | nil =>
      simp only [List.getLast?_singleton, Option.some.injEq] at hp
      subst hp
      rfl
    | cons q rest' =>
      rw [List.getLast?_cons_cons] at hp
      have := ih p hp
      rw [clampLastEnd]
      cases hc : clampLastEnd b (q :: rest') with
      | nil =>
        exfalso
        have hlen := clampLastEnd_length b (q :: rest')
        rw [hc] at hlen
        simp at hlen
      | cons y ys =>
        rw [List.getLast?_cons_cons, ← hc]
        exact this

theorem clampLastEnd_of_last_le (b : ℚ) :
    ∀ (T : List (ℚ × ℚ)) (p : ℚ × ℚ), T.getLast? = some p → p.2 ≤ b →
      clampLastEnd b T = T := by
  intro T
  induction T with
  | nil => intro p hp _; simp at hp
  | cons x rest ih =>
    intro p hp hle
    cases rest with
    | nil =>
      simp only [List.getLast?_singleton, Option.some.injEq] at hp
      subst hp
      rw [clampLastEnd, min_eq_right hle]
    | cons q rest' =>
      rw [List.getLast?_cons_cons] at hp
      rw [clampLastEnd, ih p hp hle]

theorem clampLastEnd_chain_bb (b : ℚ) :
    ∀ T : List (ℚ × ℚ), List.Chain' (fun p q : ℚ × ℚ => q.1 = p.2) T →
      List.Chain' (fun p q : ℚ × ℚ => q.1 = p.2) (clampLastEnd b T) := by
  intro T
  induction T with
  | nil => intro _; exact List.chain'_nil
  | cons x rest ih =>
    intro h
    cases rest with
    | nil => exact List.chain'_singleton _
    | cons q rest' =>
      rw [List.chain'_cons] at h
      rw [clampLastEnd]
      cases hc : clampLastEnd b (q :: rest') with
      | nil =>
        exfalso
        have hlen := clampLastEnd_length b (q :: rest')
        rw [hc] at hlen
        simp at hlen
      | cons y ys =>
        rw [List.chain'_cons]
        constructor
        · have hfst := clampLastEnd_map_fst b (q :: rest')
          rw [hc] at hfst
          simp only [List.map_cons, List.cons.injEq] at hfst
          rw [hfst.1]
          exact h.1
        · rw [← hc]
          exact ih h.2

theorem clampLastEnd_sum_sub (b : ℚ) :
    ∀ (T : List (ℚ × ℚ)) (p : ℚ × ℚ), T.getLast? = some p →
      ((clampLastEnd b T).map (fun q => q.2 - q.1)).sum
        = (T.map (fun q => q.2 - q.1)).sum + (min b p.2 - p.2) := by
  intro T
  induction T with
  | nil => intro p hp; simp at hp
  | cons x rest ih =>
    intro p hp
    cases rest with
    | nil =>
      simp only [List.getLast?_singleton, Option.some.injEq] at hp
      subst hp
      simp only [clampLastEnd, List.map_cons, List.map_nil, List.sum_cons,
        List.sum_nil]
      ring
    | cons q rest' =>
      rw [List.getLast?_cons_cons] at hp
      rw [clampLastEnd]
      simp only [List.map_cons, List.sum_cons, ih p hp]
      ring

theorem weights_sum_ge_three (chunks : List (List Char)) (h : chunks ≠ []) :
    3 ≤ (chunks.map wordCountWeight).sum := by
  cases chunks with
  | nil => exact absurd rfl h
  | cons c rest =>
    simp only [List.map_cons, List.sum_cons]
    have h3 : 3 ≤ wordCountWeight c := le_max_left _ _
    omega

theorem weights_mem_pos (chunks : List (List Char)) :
    ∀ w ∈ chunks.map wordCountWeight, 0 < w := by
  intro w hw
  rcases List.mem_map.mp hw with ⟨c, _, hc⟩
  have : 3 ≤ wordCountWeight c := le_max_left _ _
  omega

theorem allocate_timings_eq (chunks : List (List Char)) (d lead tail : ℚ) :
    allocate_timings chunks d lead tail
      = clampLastEnd (d - 1/20)
          (allocLoop (max (1/2) (d - lead - tail))
            (((chunks.map wordCountWeight).sum : ℕ) : ℚ) lead
            (chunks.map wordCountWeight)) := rfl

theorem clampLastEnd_chain_fst_lt (b : ℚ) (T : List (ℚ × ℚ))
    (h : List.Chain' (fun p q : ℚ × ℚ => p.1 < q.1) T) :
    List.Chain' (fun p q : ℚ × ℚ => p.1 < q.1) (clampLastEnd b T) := by
  have h1 : List.Chain' (· < ·) (T.map Prod.fst) := (List.chain'_map Prod.fst).mpr h
  have h2 : List.Chain' (· < ·) ((clampLastEnd b T).map Prod.fst) := by
    rw [clampLastEnd_map_fst]
    exact h1
  exact (List.chain'_map Prod.fst).mp h2

/-- Claim C2: for every non-empty chunk list and every duration, the
allocator returns one interval per chunk; the first starts at the lead-in
2/5; intervals are laid out back-to-back, so starts strictly increase; the
last end never exceeds `total - 1/20`; and the interval lengths sum to the
available window, reduced exactly by whatever the final clamp removed. -/

theorem allocate_timings_spec (chunks : List (List Char)) (d : ℚ)
    (h : chunks ≠ []) :
    (allocate_timings chunks d (2/5) (1/5)).length = chunks.length ∧
    (allocate_timings chunks d (2/5) (1/5)).head?.map Prod.fst = some (2/5) ∧
    List.Chain' (fun p q : ℚ × ℚ => q.1 = p.2)
      (allocate_timings chunks d (2/5) (1/5)) ∧
    List.Chain' (fun p q : ℚ × ℚ => p.1 < q.1)
      (allocate_timings chunks d (2/5) (1/5)) ∧
    (∀ p ∈ (allocate_timings chunks d (2/5) (1/5)).getLast?, p.2 ≤ d - 1/20) ∧
    ((allocate_timings chunks d (2/5) (1/5)).map (fun p => p.2 - p.1)).sum
      = min (d - 1/20) (2/5 + max (1/2) (d - 2/5 - 1/5)) - 2/5 := by
  have hW : chunks.map wordCountWeight ≠ [] := by
    intro hc
    exact h (List.map_eq_nil_iff.mp hc)
  have hS3 : 3 ≤ (chunks.map wordCountWeight).sum := weights_sum_ge_three chunks h
  have hS : (0 : ℚ) < (((chunks.map wordCountWeight).sum : ℕ) : ℚ) := by
    have : (0 : ℕ) < (chunks.map wordCountWeight).sum := by omega
    exact_mod_cast this
  have hA : (0 : ℚ) < max (1/2) (d - 2/5 - 1/5) := lt_max_of_lt_left (by norm_num)
  set A := max (1/2 : ℚ) (d - 2/5 - 1/5) with hAdef
  set S := (((chunks.map wordCountWeight).sum : ℕ) : ℚ) with hSdef
  set W := chunks.map wordCountWeight with hWdef
  set L := allocLoop A S (2/5) W with hLdef
  have hLlen : L.length = chunks.length := by
    rw [hLdef, allocLoop_length, hWdef, List.length_map]
  have hLne : L ≠ [] := by
    intro hc
    rw [hc] at hLlen
    simp only [List.length_nil] at hLlen
    exact h (List.length_eq_zero.mp hLlen.symm)
  obtain ⟨plast, hplast⟩ := Option.isSome_iff_exists.mp
    (List.getLast?_isSome.mpr hLne)
  have hlast_snd : plast.2 = 2/5 + A * ((W.sum : ℚ) / S) :=
    allocLoop_getLast_snd A S W hW _ plast hplast
  have hself : A * ((W.sum : ℚ) / S) = A := by
    rw [hSdef]
    rw [div_self (by exact ne_of_gt hS)]
    exact mul_one A
  refine ⟨?_, ?_, ?_, ?_, ?_, ?_⟩
  · rw [allocate_timings_eq, ← hSdef, ← hAdef, ← hWdef, ← hLdef,
      clampLastEnd_length, hLlen]
  · rw [allocate_timings_eq, ← hSdef, ← hAdef, ← hWdef, ← hLdef,
      clampLastEnd_head_fst, hLdef, allocLoop_head_fst A S W hW]
  · rw [allocate_timings_eq, ← hSdef, ← hAdef, ← hWdef, ← hLdef]
    exact clampLastEnd_chain_bb _ L (hLdef ▸ allocLoop_chain_bb A S W _)
  · rw [allocate_timings_eq, ← hSdef, ← hAdef, ← hWdef, ← hLdef]
    exact clampLastEnd_chain_fst_lt _ L
      (hLdef ▸ allocLoop_chain_lt A S hA hS W (weights_mem_pos chunks) _)
  · rw [allocate_timings_eq, ← hSdef, ← hAdef, ← hWdef, ← hLdef]
    intro p hp
    rw [clampLastEnd_getLast (d - 1/20) L plast hplast] at hp
    simp only [Option.mem_def, Option.some.injEq] at hp
    rw [← hp]
    exact min_le_left _ _
  · rw [allocate_timings_eq, ← hSdef, ← hAdef, ← hWdef, ← hLdef,
      clampLastEnd_sum_sub (d - 1/20) L plast hplast,
      hLdef, allocLoop_sum_sub A S W (2/5)]
    rw [hself, hlast_snd, hself]
    have hM := min_le_left (d - 1/20) (2/5 + A)
    linarith [hM]

/-- Witness for `allocate_timings_spec` at a concrete input. -/

theorem allocate_timings_spec_witness :
    (["en route".toList] : List (List Char)) ≠ [] ∧
    ((allocate_timings ["en route".toList] 10 (2/5) (1/5)).length
        = ([ "en route".toList ] : List (List Char)).length ∧
      (allocate_timings ["en route".toList] 10 (2/5) (1/5)).head?.map Prod.fst
        = some (2/5) ∧
      List.Chain' (fun p q : ℚ × ℚ => q.1 = p.2)
        (allocate_timings ["en route".toList] 10 (2/5) (1/5)) ∧
      List.Chain' (fun p q : ℚ × ℚ => p.1 < q.1)
        (allocate_timings ["en route".toList] 10 (2/5) (1/5)) ∧
      (∀ p ∈ (allocate_timings ["en route".toList] 10 (2/5) (1/5)).getLast?,
        p.2 ≤ 10 - 1/20) ∧
      ((allocate_timings ["en route".toList] 10 (2/5) (1/5)).map
          (fun p => p.2 - p.1)).sum
        = min (10 - 1/20) (2/5 + max (1/2) (10 - 2/5 - 1/5)) - 2/5) :=
  ⟨by decide, allocate_timings_spec ["en route".toList] 10 (by decide)⟩

/-- Claim C6: with a non-empty chunk list and the upstream duration floor
(`total ≥ 8`), every interval satisfies `0 ≤ start < end ≤ total`, and
consecutive intervals have strictly increasing starts. -/

theorem allocate_timings_invariant (chunks : List (List Char)) (d : ℚ)
    (h : chunks ≠ []) (hd : 8 ≤ d) :
    (∀ p ∈ allocate_timings chunks d (2/5) (1/5),
      0 ≤ p.1 ∧ p.1 < p.2 ∧ p.2 ≤ d) ∧
    List.Chain' (fun p q : ℚ × ℚ => p.1 < q.1)
      (allocate_timings chunks d (2/5) (1/5)) := by
  have hW : chunks.map wordCountWeight ≠ [] := by
    intro hc
    exact h (List.map_eq_nil_iff.mp hc)
  have hS3 : 3 ≤ (chunks.map wordCountWeight).sum := weights_sum_ge_three chunks h
  have hS : (0 : ℚ) < (((chunks.map wordCountWeight).sum : ℕ) : ℚ) := by
    have hn : (0 : ℕ) < (chunks.map wordCountWeight).sum := by omega
    exact_mod_cast hn
  have hAeq : max (1/2 : ℚ) (d - 2/5 - 1/5) = d - 2/5 - 1/5 :=
    max_eq_right (by linarith)
  have hA : (0 : ℚ) < max (1/2) (d - 2/5 - 1/5) := lt_max_of_lt_left (by norm_num)
  set A := max (1/2 : ℚ) (d - 2/5 - 1/5) with hAdef
  set S := (((chunks.map wordCountWeight).sum : ℕ) : ℚ) with hSdef
  set W := chunks.map wordCountWeight with hWdef
  set L := allocLoop A S (2/5) W with hLdef
  have hLne : L ≠ [] := by
    intro hc
    have hlen : L.length = W.length := by rw [hLdef, allocLoop_length]
    rw [hc] at hlen
    simp only [List.length_nil] at hlen
    exact hW (List.length_eq_zero.mp hlen.symm)
  obtain ⟨plast, hplast⟩ := Option.isSome_iff_exists.mp
    (List.getLast?_isSome.mpr hLne)
  have hself : A * ((W.sum : ℚ) / S) = A := by
    rw [hSdef, div_self (ne_of_gt hS), mul_one]
  have hlast_snd : plast.2 = 2/5 + A :=
    (allocLoop_getLast_snd A S W hW _ plast hplast).trans (by rw [hself])
  have hclamp : allocate_timings chunks d (2/5) (1/5) = L := by
    rw [allocate_timings_eq, ← hSdef, ← hAdef, ← hWdef, ← hLdef]
    exact clampLastEnd_of_last_le _ L plast hplast
      (by rw [hlast_snd, hAeq]; linarith)
  rw [hclamp]
  constructor
  · intro p hp
    obtain ⟨h1, h2, h3⟩ := allocLoop_mem_bounds A S hA hS W
      (weights_mem_pos chunks) (2/5) p (hLdef ▸ hp)
    refine ⟨by linarith, h2, ?_⟩
    rw [hself] at h3
    rw [hAeq] at h3
    linarith
  · exact hLdef ▸ allocLoop_chain_lt A S hA hS W (weights_mem_pos chunks) _

/-- Witness for `allocate_timings_invariant` at a concrete input. -/

theorem allocate_timings_invariant_witness :
    (["one two".toList] : List (List Char)) ≠ [] ∧ (8 : ℚ) ≤ 9 ∧
    ((∀ p ∈ allocate_timings ["one two".toList] 9 (2/5) (1/5),
        0 ≤ p.1 ∧ p.1 < p.2 ∧ p.2 ≤ 9) ∧
      List.Chain' (fun p q : ℚ × ℚ => p.1 < q.1)
        (allocate_timings ["one two".toList] 9 (2/5) (1/5))) :=
  ⟨by decide, by norm_num,
    allocate_timings_invariant ["one two".toList] 9 (by decide) (by norm_num)⟩

/-- Claim C9: the allocator never divides by zero — on an empty chunk list
it returns the empty list before any quotient is formed, and on a non-empty
list every weight is floored at 3, so the weight sum (the only divisor) is
at least 3 and strictly positive. -/

theorem allocate_timings_no_div_by_zero :
    (∀ d lead tail : ℚ, allocate_timings [] d lead tail = []) ∧
    (∀ chunks : List (List Char), chunks ≠ [] →
      3 ≤ (chunks.map wordCountWeight).sum ∧
      (0 : ℚ) < (((chunks.map wordCountWeight).sum : ℕ) : ℚ)) := by
  constructor
  · intro d lead tail
    rfl
  · intro chunks h
    have h3 := weights_sum_ge_three chunks h
    refine ⟨h3, ?_⟩
    have hn : (0 : ℕ) < (chunks.map wordCountWeight).sum := by omega
    exact_mod_cast hn

/-- Witness for `allocate_timings_no_div_by_zero` at concrete inputs. -/

theorem allocate_timings_no_div_by_zero_witness :
    allocate_timings [] 7 (2/5) (1/5) = [] ∧
    ((["hi".toList] : List (List Char)) ≠ []) ∧
    3 ≤ (["hi".toList].map wordCountWeight).sum ∧
    (0 : ℚ) < (((["hi".toList].map wordCountWeight).sum : ℕ) : ℚ) :=
  ⟨allocate_timings_no_div_by_zero.1 7 (2/5) (1/5), by decide,
    (allocate_timings_no_div_by_zero.2 ["hi".toList] (by decide)).1,
    (allocate_timings_no_div_by_zero.2 ["hi".toList] (by decide)).2⟩

/- ### Lemmas about `split_script_into_chunks` -/

theorem wordsFlat_cons (x : List Char) (l : List (List Char)) :
    wordsFlat (x :: l) = splitWords x ++ wordsFlat l := by
  simp [wordsFlat]

theorem wordsAcc_packStep (st : List (List Char) × List Char) (sent : List Char) :
    wordsAcc (packStep st sent) = wordsAcc st ++ splitWords sent := by
  unfold packStep
  by_cases hcond : (strip (st.2 ++ ' ' :: sent)).length ≤ 170
  · rw [if_pos hcond]
    unfold wordsAcc
    simp only
    rw [splitWords_strip, splitWords_append_space isSpace_space, List.append_assoc]
  · rw [if_neg hcond]
    unfold wordsAcc
    by_cases hcur : st.2.isEmpty
    · rw [List.isEmpty_iff] at hcur
      simp [hcur, splitWords_nil]
    · rw [Bool.not_eq_true] at hcur
      simp only [hcur, Bool.false_eq_true, if_false]
      rw [wordsFlat_append]
      simp [wordsFlat]

theorem wordsAcc_packStep_foldl (sents : List (List Char)) :
    ∀ st : List (List Char) × List Char,
      wordsAcc (sents.foldl packStep st) = wordsAcc st ++ wordsFlat sents := by
  induction sents with
  | nil => intro st; simp [wordsFlat]
  | cons sent sents ih =>
    intro st
    rw [List.foldl_cons, ih, wordsAcc_packStep, wordsFlat_cons, List.append_assoc]

theorem wordsFlat_greedyPack (sents : List (List Char)) :
    wordsFlat (greedyPack sents) = wordsFlat sents := by
  unfold greedyPack
  have h := wordsAcc_packStep_foldl sents ([], [])
  have h0 : wordsAcc ([], ([] : List Char)) = [] := by
    simp [wordsAcc, wordsFlat, splitWords_nil]
  rw [h0, List.nil_append] at h
  set st := sents.foldl packStep ([], []) with hst
  by_cases hcur : st.2.isEmpty
  · rw [List.isEmpty_iff] at hcur
    unfold wordsAcc at h
    rw [hcur, splitWords_nil, List.append_nil] at h
    simp only [hcur]
    rw [← h]
    simp [wordsFlat]
  · simp only [hcur, Bool.false_eq_true, if_false]
    rw [wordsFlat_append, ← h]
    simp [wordsAcc, wordsFlat]

theorem list_decomp_two (i : ℕ) (chunks : List (List Char)) (a b : List Char)
    (ha : chunks[i]? = some a) (hb : chunks[i + 1]? = some b) :
    chunks = chunks.take i ++ a :: b :: chunks.drop (i + 2) := by
  obtain ⟨hi, hai⟩ := List.getElem?_eq_some.mp ha
  obtain ⟨hi1, hbi⟩ := List.getElem?_eq_some.mp hb
  conv_lhs => rw [← List.take_append_drop i chunks]
  congr 1
  rw [List.drop_eq_getElem_cons hi, hai]
  congr 1
  rw [List.drop_eq_getElem_cons hi1, hbi]

theorem wordsFlat_mergeAt (i : ℕ) (chunks : List (List Char)) :
    wordsFlat (mergeAt i chunks) = wordsFlat chunks := by
  unfold mergeAt
  cases ha : chunks[i]? with
  | none => rfl
  | some a =>
    cases hb : chunks[i + 1]? with
    | none => rfl
    | some b =>
      conv_rhs => rw [list_decomp_two i chunks a b ha hb]
      rw [wordsFlat_append, wordsFlat_append, wordsFlat_cons, wordsFlat_cons,
        wordsFlat_cons, splitWords_strip, splitWords_append_space isSpace_space]
      simp [List.append_assoc]

theorem length_mergeAt (i : ℕ) (chunks : List (List Char))
    (hi : i + 1 < chunks.length) :
    (mergeAt i chunks).length + 1 = chunks.length := by
  have ha : chunks[i]? = some chunks[i] := List.getElem?_eq_getElem (by omega)
  have hb : chunks[i + 1]? = some chunks[i + 1] := List.getElem?_eq_getElem hi
  unfold mergeAt
  rw [ha, hb]
  have hdecomp := list_decomp_two i chunks chunks[i] chunks[i + 1] ha hb
  have hlen : chunks.length
      = (chunks.take i).length + 2 + (chunks.drop (i + 2)).length := by
    conv_lhs => rw [hdecomp]
    simp [List.length_append]
    omega
  simp only [List.length_append, List.length_cons]
  omega

theorem firstMinIdxAux_lt (xs : List ℕ) :
    ∀ i bi bl, bi < i → firstMinIdxAux i bi bl xs < i + xs.length := by
  induction xs with
  | nil =>
    intro i bi bl h
    unfold firstMinIdxAux
    simpa using h
  | cons x xs ih =>
    intro i bi bl h
    unfold firstMinIdxAux
    by_cases hx : x < bl
    · rw [if_pos hx]
      have := ih (i + 1) i x (by omega)
      simp only [List.length_cons]
      omega
    · rw [if_neg hx]
      have := ih (i + 1) bi bl (by omega)
      simp only [List.length_cons]
      omega

theorem firstMinIdx_lt (xs : List ℕ) (h : xs ≠ []) : firstMinIdx xs < xs.length := by
  cases xs with
  | nil => exact absurd rfl h
  | cons x xs =>
    unfold firstMinIdx
    have := firstMinIdxAux_lt xs 1 0 x (by omega)
    simp only [List.length_cons]
    omega

theorem pairLens_length (chunks : List (List Char)) (h : 1 ≤ chunks.length) :
    (pairLens chunks).length = chunks.length - 1 := by
  unfold pairLens
  rw [List.length_map, List.length_zip, List.length_tail]
  omega

theorem bestIdx_valid (chunks : List (List Char)) (h : 2 ≤ chunks.length) :
    firstMinIdx (pairLens chunks) + 1 < chunks.length := by
  have hpl : (pairLens chunks).length = chunks.length - 1 :=
    pairLens_length chunks (by omega)
  have hne : pairLens chunks ≠ [] := by
    intro hc
    rw [hc] at hpl
    simp only [List.length_nil] at hpl
    omega
  have := firstMinIdx_lt (pairLens chunks) hne
  omega

theorem mergeDownFuel_words :
    ∀ (fuel target : ℕ) (chunks : List (List Char)),
      wordsFlat (mergeDownFuel fuel target chunks) = wordsFlat chunks := by
  intro fuel
  induction fuel with
  | zero => intro target chunks; rfl
  | succ fuel ih =>
    intro target chunks
    unfold mergeDownFuel
    by_cases hg : target < chunks.length ∧ 2 ≤ chunks.length
    · rw [if_pos hg, ih, wordsFlat_mergeAt]
    · rw [if_neg hg]

theorem mergeDownFuel_length_le (target : ℕ) (ht : 1 ≤ target) :
    ∀ (fuel : ℕ) (chunks : List (List Char)),
      chunks.length ≤ fuel + target →
      (mergeDownFuel fuel target chunks).length ≤ target := by
  intro fuel
  induction fuel with
  | zero =>
    intro chunks h
    unfold mergeDownFuel
    omega
  | succ fuel ih =>
    intro chunks h
    unfold mergeDownFuel
    by_cases hg : target < chunks.length ∧ 2 ≤ chunks.length
    · rw [if_pos hg]
      apply ih
      have hidx := bestIdx_valid chunks hg.2
      have := length_mergeAt (firstMinIdx (pairLens chunks)) chunks hidx
      omega
    · rw [if_neg hg]
      rw [Decidable.not_and_iff_or_not] at hg
      rcases hg with hg | hg <;> omega

theorem mergeDown_words (target : ℕ) (chunks : List (List Char)) :
    wordsFlat (mergeDown target chunks) = wordsFlat chunks :=
  mergeDownFuel_words chunks.length target chunks

theorem mergeDown_length_le (target : ℕ) (ht : 1 ≤ target)
    (chunks : List (List Char)) : (mergeDown target chunks).length ≤ target :=
  mergeDownFuel_length_le target ht chunks.length chunks (by omega)

/-- Claim C3 (amended): for every script and every positive target, the
segmenter returns at most `target` chunks; when the sentence split yields at
most one sentence the result is the single stripped script; otherwise the
chunks' words reproduce, in order, exactly the words of the sentence
fragments (the sanitized script's words with the sentence-splitting periods
removed), since packing and merging only space-join whole sentences. -/

theorem split_script_spec (script : List Char) (target : ℕ) (ht : 1 ≤ target) :
    (split_script_into_chunks script target).length ≤ target ∧
    (if (sentencesOf script).length ≤ 1
     then split_script_into_chunks script target = [strip script]
     else wordsFlat (split_script_into_chunks script target)
        = wordsFlat (sentencesOf script)) := by
  by_cases hlen : (sentencesOf script).length ≤ 1
  · have heq : split_script_into_chunks script target = [strip script] := by
      simp only [split_script_into_chunks]
      rw [if_pos hlen]
    rw [if_pos hlen]
    refine ⟨?_, heq⟩
    rw [heq]
    simpa using ht
  · have heq : split_script_into_chunks script target
        = mergeDown target (greedyPack (sentencesOf script)) := by
      simp only [split_script_into_chunks]
      rw [if_neg hlen]
    rw [if_neg hlen, heq]
    exact ⟨mergeDown_length_le target ht _,
      by rw [mergeDown_words, wordsFlat_greedyPack]⟩

/-- Witness for `split_script_spec` at a concrete input. -/

theorem split_script_spec_witness :
    1 ≤ 8 ∧
    ((split_script_into_chunks ("One. Two. Three.".toList) 8).length ≤ 8 ∧
      (if (sentencesOf ("One. Two. Three.".toList)).length ≤ 1
       then split_script_into_chunks ("One. Two. Three.".toList) 8
          = [strip ("One. Two. Three.".toList)]
       else wordsFlat (split_script_into_chunks ("One. Two. Three.".toList) 8)
          = wordsFlat (sentencesOf ("One. Two. Three.".toList)))) :=
  ⟨by decide, split_script_spec ("One. Two. Three.".toList) 8 (by decide)⟩

/-- Claim C3 counterexample: for the 2-sentence script "a. b." the chunk
words are the period-stripped fragments, not the words of the sanitized
input ("a." and "b."), so the claimed word reproduction fails as stated. -/

theorem split_script_words_counterexample :
    wordsFlat (split_script_into_chunks ("a. b.".toList) 8) = [['a'], ['b']] ∧
    splitWords (strip ("a. b.".toList)) = [['a', '.'], ['b', '.']] ∧
    wordsFlat (split_script_into_chunks ("a. b.".toList) 8)
      ≠ splitWords (strip ("a. b.".toList)) := by
  decide

/- ### Graph-level lemmas and claims C1, C8 -/

theorem allocate_timings_length (chunks : List (List Char)) (d lead tail : ℚ) :
    (allocate_timings chunks d lead tail).length = chunks.length := by
  rw [allocate_timings_eq, clampLastEnd_length, allocLoop_length, List.length_map]

theorem captionTexts_background (rest : List CompLayer) :
    captionTexts (CompLayer.background :: rest) = captionTexts rest := rfl

theorem captionTexts_titleCard (t : List Char) (rest : List CompLayer) :
    captionTexts (CompLayer.titleCard t :: rest) = captionTexts rest := rfl

theorem captionTexts_caption (t : List Char) (a b : ℚ) (rest : List CompLayer) :
    captionTexts (CompLayer.caption t a b :: rest) = t :: captionTexts rest := rfl

theorem captionTexts_progressBar (rest : List CompLayer) :
    captionTexts (CompLayer.progressBar :: rest) = captionTexts rest := rfl

theorem captionTexts_append (a b : List CompLayer) :
    captionTexts (a ++ b) = captionTexts a ++ captionTexts b := by
  induction a with
  | nil => rfl
  | cons x rest ih =>
    cases x with
    | background => rw [List.cons_append, captionTexts_background, ih, captionTexts_background]
    | titleCard t => rw [List.cons_append, captionTexts_titleCard, ih, captionTexts_titleCard]
    | caption t s e =>
      rw [List.cons_append, captionTexts_caption, ih, captionTexts_caption, List.cons_append]
    | progressBar => rw [List.cons_append, captionTexts_progressBar, ih, captionTexts_progressBar]

theorem captionTexts_map_caption {A : Type} (f : A → List Char) (g h : A → ℚ)
    (l : List A) :
    captionTexts (l.map fun x => CompLayer.caption (f x) (g x) (h x)) = l.map f := by
  induction l with
  | nil => rfl
  | cons x rest ih => rw [List.map_cons, captionTexts_caption, ih, List.map_cons]

theorem titleTexts_background (rest : List CompLayer) :
    titleTexts (CompLayer.background :: rest) = titleTexts rest := rfl

theorem titleTexts_titleCard (t : List Char) (rest : List CompLayer) :
    titleTexts (CompLayer.titleCard t :: rest) = t :: titleTexts rest := rfl

theorem titleTexts_caption (t : List Char) (a b : ℚ) (rest : List CompLayer) :
    titleTexts (CompLayer.caption t a b :: rest) = titleTexts rest := rfl

theorem titleTexts_progressBar (rest : List CompLayer) :
    titleTexts (CompLayer.progressBar :: rest) = titleTexts rest := rfl

theorem titleTexts_append (a b : List CompLayer) :
    titleTexts (a ++ b) = titleTexts a ++ titleTexts b := by
  induction a with
  | nil => rfl
  | cons x rest ih =>
    cases x with
    | background => rw [List.cons_append, titleTexts_background, ih, titleTexts_background]
    | titleCard t =>
      rw [List.cons_append, titleTexts_titleCard, ih, titleTexts_titleCard, List.cons_append]
    | caption t s e => rw [List.cons_append, titleTexts_caption, ih, titleTexts_caption]
    | progressBar => rw [List.cons_append, titleTexts_progressBar, ih, titleTexts_progressBar]

theorem titleTexts_map_caption {A : Type} (f : A → List Char) (g h : A → ℚ)
    (l : List A) :
    titleTexts (l.map fun x => CompLayer.caption (f x) (g x) (h x)) = [] := by
  induction l with
  | nil => rfl
  | cons x rest ih => rw [List.map_cons, titleTexts_caption, ih]

theorem captionTexts_buildGraph (title script : List Char) (d : ℚ) :
    captionTexts (buildGraph title script d)
      = (split_script_into_chunks script 8).map escape_drawtext := by
  simp only [buildGraph]
  rw [captionTexts_append, captionTexts_background, captionTexts_titleCard,
    captionTexts_map_caption (fun ct : List Char × (ℚ × ℚ) => escape_drawtext ct.1)
      (fun ct => ct.2.1) (fun ct => ct.2.2),
    captionTexts_progressBar]
  show ((split_script_into_chunks script 8).zip
      (allocate_timings (split_script_into_chunks script 8) d (2/5) (1/5))).map
      (fun ct => escape_drawtext ct.1) ++ captionTexts [] 
    = (split_script_into_chunks script 8).map escape_drawtext
  have h2 : (((split_script_into_chunks script 8).zip
        (allocate_timings (split_script_into_chunks script 8) d (2/5) (1/5))).map
        Prod.fst).map escape_drawtext
      = ((split_script_into_chunks script 8).zip
        (allocate_timings (split_script_into_chunks script 8) d (2/5) (1/5))).map
        (fun ct => escape_drawtext ct.1) := by
    rw [List.map_map]
    rfl
  rw [← h2, List.map_fst_zip]
  · show _ ++ ([] : List (List Char)) = _
    rw [List.append_nil]
  · rw [allocate_timings_length]

theorem titleTexts_buildGraph (title script : List Char) (d : ℚ) :
    titleTexts (buildGraph title script d)
      = [escape_drawtext (wrap_title title 28)] := by
  simp only [buildGraph]
  rw [titleTexts_append, titleTexts_background, titleTexts_titleCard,
    titleTexts_map_caption (fun ct : List Char × (ℚ × ℚ) => escape_drawtext ct.1)
      (fun ct => ct.2.1) (fun ct => ct.2.2),
    titleTexts_progressBar]
  rfl

/-- Claim C8 (amended): the wrapping algorithm is applied at exactly one
call site — the title, at 28 chars per line with the 3-line cap; caption
chunks are escaped and placed in their layers without any line wrapping
(there is no 36-char wrap in the pipeline). -/

theorem graph_call_sites (title script : List Char) (d : ℚ) :
    titleTexts (buildGraph title script d)
      = [escape_drawtext (wrap_title title 28)] ∧
    captionTexts (buildGraph title script d)
      = (split_script_into_chunks script 8).map escape_drawtext :=
  ⟨titleTexts_buildGraph title script d, captionTexts_buildGraph title script d⟩

/-- Claim C8 counterexample: a 41-character one-sentence script becomes a
single caption layer holding the unwrapped escaped chunk; had the chunk been
wrapped at 36 chars first, the layer text would contain an escaped newline
and differ. -/

theorem caption_not_wrapped_counterexample :
    captionTexts (buildGraph ("T".toList)
        ("aaaaaaaaaaaaaaaaaaaa bbbbbbbbbbbbbbbbbbbb".toList) 9)
      = ["aaaaaaaaaaaaaaaaaaaa bbbbbbbbbbbbbbbbbbbb".toList] ∧
    escape_drawtext
        (wrap_title ("aaaaaaaaaaaaaaaaaaaa bbbbbbbbbbbbbbbbbbbb".toList) 36)
      ≠ "aaaaaaaaaaaaaaaaaaaa bbbbbbbbbbbbbbbbbbbb".toList := by
  constructor
  · rw [captionTexts_buildGraph]
    decide
  · decide

/-- Claim C1 counterexample: the empty script yields one chunk (the empty
string), not zero — `split_script_into_chunks` hits its
`len(sentences) <= 1` branch and returns `[s]` — so the graph holds one
(empty-text) caption layer, not zero. -/

theorem empty_script_counterexample :
    split_script_into_chunks ([] : List Char) 8 = [[]] ∧
    split_script_into_chunks ([] : List Char) 8 ≠ [] ∧
    captionCount (buildGraph ("Canadian Finance".toList) [] 9) = 1 ∧
    captionCount (buildGraph ("Canadian Finance".toList) [] 9) ≠ 0 := by
  refine ⟨rfl, by decide, rfl, by decide⟩

/-- Claim C1 (amended): a script that sanitizes to the empty string yields
exactly one caption chunk, the empty string, and the pipeline still builds a
valid graph: background, title card, exactly one caption layer (with empty
text, starting at the lead-in), and the progress bar. -/

theorem empty_script_graph (title script : List Char) (d : ℚ)
    (h : strip script = []) :
    split_script_into_chunks script 8 = [[]] ∧
    buildGraph title script d
      = [CompLayer.background,
          CompLayer.titleCard (escape_drawtext (wrap_title title 28)),
          CompLayer.caption [] (2/5)
            (min (d - 1/20) (2/5 + max (1/2) (d - 2/5 - 1/5))),
          CompLayer.progressBar] ∧
    captionCount (buildGraph title script d) = 1 := by
  have hsent : sentencesOf script = [] := by
    unfold sentencesOf
    rw [h]
    rfl
  have hsplit : split_script_into_chunks script 8 = [[]] := by
    simp only [split_script_into_chunks, hsent, h]
    rfl
  have h1 : allocate_timings [[]] d (2/5) (1/5)
      = [(2/5, min (d - 1/20)
          (2/5 + max (1/2) (d - 2/5 - 1/5) * (((3 : ℕ) : ℚ) / ((3 : ℕ) : ℚ))))] := rfl
  have htimes : allocate_timings [[]] d (2/5) (1/5)
      = [(2/5, min (d - 1/20) (2/5 + max (1/2) (d - 2/5 - 1/5)))] := by
    rw [h1]
    norm_num
  have hgraph : buildGraph title script d
      = [CompLayer.background,
          CompLayer.titleCard (escape_drawtext (wrap_title title 28)),
          CompLayer.caption [] (2/5)
            (min (d - 1/20) (2/5 + max (1/2) (d - 2/5 - 1/5))),
          CompLayer.progressBar] := by
    simp only [buildGraph, hsplit, htimes]
    rfl
  refine ⟨hsplit, hgraph, ?_⟩
  rw [hgraph]
  rfl

/-- Witness for `empty_script_graph` at a concrete input. -/

theorem empty_script_graph_witness :
    strip ("  ".toList) = [] ∧
    (split_script_into_chunks ("  ".toList) 8 = [[]] ∧
      buildGraph ("T".toList) ("  ".toList) 9
        = [CompLayer.background,
            CompLayer.titleCard (escape_drawtext (wrap_title ("T".toList) 28)),
            CompLayer.caption [] (2/5)
              (min ((9 : ℚ) - 1/20) (2/5 + max (1/2) ((9 : ℚ) - 2/5 - 1/5))),
            CompLayer.progressBar] ∧
      captionCount (buildGraph ("T".toList) ("  ".toList) 9) = 1) :=
  ⟨by decide, empty_script_graph ("T".toList) ("  ".toList) 9 (by decide)⟩
